import Mathlib

/-!
# Verification of the `rust-grep` regex engine

A shallow embedding of the pattern compiler (`src/regex/parser.rs`) and the
backtracking matcher (`src/regex/matcher.rs`) of the `rust-grep` repository,
together with theorems settling the specification claims about them.

Modelling conventions:
* Rust `&str` text is a `List Char` of Unicode scalar values; byte positions
  are recovered through `Char.utf8Size`, mirroring `str::len` / `char::len_utf8`.
* Rust string slicing `&text[..n]` / `&text[n..]` panics when `n` is not a
  char boundary (or exceeds the length); slicing is therefore modelled by
  `take_bytes` / `drop_bytes` returning `Option`, and a panic is an
  `Except.error ()` result of the matcher.
* `usize` arithmetic wraps modulo `2 ^ 64` (release-build semantics); the only
  place this matters is the `n - 1` capture indexing, modelled by
  `usize_sub_one`.
* The mutable `captures: &mut Vec<Option<String>>` is threaded by value:
  every matcher function returns the capture vector alongside its result.
-/

/-- `GroupType` from `src/regex/ast.rs`: polarity of a `[...]` class. -/
inductive GroupType where
  | Positive
  | Negative
deriving Repr

/-- `Token` from `src/regex/ast.rs`: one node of the compiled pattern. -/
inductive Token where
  | Literal (c : Char)
  | Digit
  | Alphanumeric
  | Wildcard
  | BracketGroup (members : List Char) (groupType : GroupType)
  | EndAnchor
  | Quantifier (inner : Token) (min : Nat) (max : Option Nat)
  | Alternation (left : List Token) (right : List Token)
  | Group (body : List Token) (id : Nat)
  | Backreference (n : Nat)
deriving Repr

/-- Capture state: Rust `Vec<Option<String>>`. -/
abbrev Captures := List (Option (List Char))

/-! ## Byte-level string primitives -/

/-- Byte length of a text, as `str::len` computes it. -/
def str_bytes : List Char → Nat
  | [] => 0
  | c :: cs => c.utf8Size + str_bytes cs

/-- `&text[..n]`: the prefix of `text` occupying exactly `n` bytes, or `none`
when `n` is out of range or falls inside a multi-byte character (in Rust this
is a panic). -/
def take_bytes : List Char → Nat → Option (List Char)
  | _, 0 => some []
  | [], _ + 1 => none
  | c :: cs, n + 1 =>
    if c.utf8Size ≤ n + 1 then (take_bytes cs (n + 1 - c.utf8Size)).map (fun t => c :: t)
    else none

/-- `&text[n..]`: the suffix of `text` after the first `n` bytes, or `none`
when `n` is out of range or falls inside a multi-byte character. -/
def drop_bytes : List Char → Nat → Option (List Char)
  | s, 0 => some s
  | [], _ + 1 => none
  | c :: cs, n + 1 =>
    if c.utf8Size ≤ n + 1 then drop_bytes cs (n + 1 - c.utf8Size) else none

theorem char_utf8Size_pos (c : Char) : 0 < c.utf8Size := by
  unfold Char.utf8Size
  dsimp only
  split
  · omega
  · split
    · omega
    · split <;> omega

theorem char_utf8Size_cases (c : Char) :
    c.utf8Size = 1 ∨ c.utf8Size = 2 ∨ c.utf8Size = 3 ∨ c.utf8Size = 4 := by
  unfold Char.utf8Size
  dsimp only
  split
  · omega
  · split
    · omega
    · split <;> omega

theorem take_bytes_some (s : List Char) :
    ∀ n t, take_bytes s n = some t → str_bytes t = n ∧ n ≤ str_bytes s := by
  induction s with
  | nil =>
    intro n t h
    match n, h with
    | 0, h =>
      simp only [take_bytes, Option.some.injEq] at h
      subst h
      exact ⟨rfl, Nat.le_refl 0⟩
  | cons c cs ih =>
    intro n t h
    match n, h with
    | 0, h =>
      simp only [take_bytes, Option.some.injEq] at h
      subst h
      exact ⟨rfl, Nat.zero_le _⟩
    | n + 1, h =>
      simp only [take_bytes] at h
      split at h
      · rename_i hle
        match hrec : take_bytes cs (n + 1 - c.utf8Size) with
        | none => rw [hrec] at h; simp at h
        | some t' =>
          rw [hrec] at h
          simp only [Option.map_some', Option.some.injEq] at h
          subst h
          have := ih _ _ hrec
          constructor
          · simp only [str_bytes]
            omega
          · simp only [str_bytes]
            omega
      · exact absurd h (by simp)

theorem drop_bytes_some (s : List Char) :
    ∀ n t, drop_bytes s n = some t → str_bytes t + n = str_bytes s := by
  induction s with
  | nil =>
    intro n t h
    match n, h with
    | 0, h =>
      simp only [drop_bytes, Option.some.injEq] at h
      subst h
      rfl
  | cons c cs ih =>
    intro n t h
    match n, h with
    | 0, h =>
      simp only [drop_bytes, Option.some.injEq] at h
      subst h
      rfl
    | n + 1, h =>
      simp only [drop_bytes] at h
      split at h
      · rename_i hle
        have := ih _ _ h
        simp only [str_bytes]
        omega
      · exact absurd h (by simp)

theorem drop_bytes_le (s t : List Char) (n : Nat) (h : drop_bytes s n = some t) :
    str_bytes t ≤ str_bytes s := by
  have := drop_bytes_some s n t h
  omega

theorem drop_bytes_lt (s t : List Char) (n : Nat) (h : drop_bytes s n = some t)
    (hn : 0 < n) : str_bytes t < str_bytes s := by
  have := drop_bytes_some s n t h
  omega

/-! ## Token measures (termination metric for the matcher) -/

mutual
def tok_measure : Token → Nat
  | .Literal _ => 1
  | .Digit => 1
  | .Alphanumeric => 1
  | .Wildcard => 1
  | .BracketGroup _ _ => 1
  | .EndAnchor => 1
  | .Backreference _ => 1
  | .Quantifier inner mn _ => tok_measure inner + mn + 2
  | .Alternation l r => toks_measure l + toks_measure r + 1
  | .Group body _ => toks_measure body + 1

def toks_measure : List Token → Nat
  | [] => 0
  | t :: ts => tok_measure t + toks_measure ts
end

theorem toks_measure_cons (t : Token) (ts : List Token) :
    toks_measure (t :: ts) = tok_measure t + toks_measure ts := by
  rw [toks_measure]

theorem tok_measure_pos (t : Token) : 0 < tok_measure t := by
  cases t <;> simp only [tok_measure] <;> omega

theorem lex3 {a a' b b' c c' : Nat} (h1 : a ≤ a') (h2 : a = a' → b ≤ b')
    (h3 : a = a' → b = b' → c < c') :
    Prod.Lex (· < ·) (Prod.Lex (· < ·) (· < ·)) (a, b, c) (a', b', c') := by
  rcases Nat.lt_or_ge a a' with h | h
  · exact Prod.Lex.left _ _ h
  · have ha : a = a' := Nat.le_antisymm h1 h
    subst ha
    rcases Nat.lt_or_ge b b' with hb | hb
    · exact Prod.Lex.right _ (Prod.Lex.left _ _ hb)
    · have hbe : b = b' := Nat.le_antisymm (h2 rfl) hb
      subst hbe
      exact Prod.Lex.right _ (Prod.Lex.right _ (h3 rfl rfl))

theorem str_bytes_cons_lt (c : Char) (cs : List Char) :
    str_bytes cs < str_bytes (c :: cs) := by
  simp only [str_bytes]
  have := char_utf8Size_pos c
  omega

def matches_token (token : Token) (c : Char) : Bool :=
  match token with
  | .Wildcard => true
  | .Literal l => c = l
  | .Digit => c.isDigit
  | .Alphanumeric => c.isAlphanum || c = '_'
  | .BracketGroup members groupType =>
    let found := members.contains c
    match groupType with
    | .Positive => found
    | .Negative => !found
  | _ => false

def usize_max : Nat := 2 ^ 64 - 1

def usize_sub_one (n : Nat) : Nat := if n = 0 then usize_max else n - 1

def resize_captures (caps : Captures) (id : Nat) : Captures :=
  if caps.length < id then caps ++ List.replicate (id - caps.length) none else caps

def set_capture (caps : Captures) (id : Nat) (sub : List Char) : Except Unit Captures :=
  if usize_sub_one id < caps.length then .ok (caps.set (usize_sub_one id) (some sub))
  else .error ()

mutual
def match_here : (tokens : List Token) → (text : List Char) → Captures →
    Except Unit (Option Nat × Captures)
  | [], _, caps => .ok (some 0, caps)
  | .EndAnchor :: _, text, caps =>
    if text.isEmpty then .ok (some 0, caps) else .ok (none, caps)
  | .Alternation left right :: rest, text, caps =>
    -- first the left branch plus the remaining tokens, on a copy of the
    -- captures; on failure the right branch plus the remaining tokens (the
    -- Rust fall-through block is reached from two spots and is spelled out at
    -- both here)
    match match_here left text caps with
    | .error e => .error e
    | .ok (some left_len, left_caps) =>
      (match hdl : drop_bytes text left_len with
       | none => .error ()
       | some text2 =>
         match match_here rest text2 left_caps with
         | .error e => .error e
         | .ok (some rest_len, final_caps) => .ok (some (left_len + rest_len), final_caps)
         | .ok (none, _) =>
           match match_here right text caps with
         | .error e => .error e
         | .ok (some right_len, right_caps) =>
           (match hdr1 : drop_bytes text right_len with
            | none => .error ()
            | some text3 =>
              match match_here rest text3 right_caps with
              | .error e => .error e
              | .ok (some rest_len2, final_caps2) => .ok (some (right_len + rest_len2), final_caps2)
              | .ok (none, _) => .ok (none, caps))
         | .ok (none, _) => .ok (none, caps))
    | .ok (none, _) =>
      match match_here right text caps with
         | .error e => .error e
         | .ok (some right_len, right_caps) =>
           (match hdr2 : drop_bytes text right_len with
            | none => .error ()
            | some text3 =>
              match match_here rest text3 right_caps with
              | .error e => .error e
              | .ok (some rest_len2, final_caps2) => .ok (some (right_len + rest_len2), final_caps2)
              | .ok (none, _) => .ok (none, caps))
         | .ok (none, _) => .ok (none, caps)
  | .Group inner_tokens id :: rest, text, caps =>
    group_loop inner_tokens id rest text (resize_captures caps id) (str_bytes text + 1)
  | .Backreference n :: rest, text, caps =>
    match caps.get? (usize_sub_one n) with
    | some (some captured_val) =>
      if captured_val.isPrefixOf text then
        match hdb : drop_bytes text (str_bytes captured_val) with
        | none => .error ()
        | some text2 =>
          match match_here rest text2 caps with
          | .error e => .error e
          | .ok (some rest_len, caps2) => .ok (some (str_bytes captured_val + rest_len), caps2)
          | .ok (none, caps2) => .ok (none, caps2)
      else .ok (none, caps)
    | _ => .ok (none, caps)
  | .Quantifier inner mn mx :: rest, text, caps =>
    if mx = some 0 then
      match_here rest text caps
    else
      -- greedy attempt; the Rust fallback block (restore saved captures, then
      -- match the rest only when min is zero) is reached from three spots and
      -- is spelled out at each
      match match_here [inner] text caps with
      | .error e => .error e
      | .ok (some inner_len, caps1) =>
        if hcond : 0 < inner_len ∨ 0 < mn then
          match hdrop : drop_bytes text inner_len with
          | none => .error ()
          | some text2 =>
            match match_here
                (.Quantifier inner (if 0 < mn then mn - 1 else 0) (mx.map (fun m => m - 1)) :: rest)
                text2 caps1 with
            | .error e => .error e
            | .ok (some total_len, caps2) => .ok (some (inner_len + total_len), caps2)
            | .ok (none, _) =>
              if mn = 0 then match_here rest text caps else .ok (none, caps)
        else
          if mn = 0 then match_here rest text caps else .ok (none, caps)
      | .ok (none, _) =>
        if mn = 0 then match_here rest text caps else .ok (none, caps)
  | token :: rest, text, caps =>
    match text with
    | [] => .ok (none, caps)
    | c :: text_rest =>
      if matches_token token c then
        match match_here rest text_rest caps with
        | .error e => .error e
        | .ok (some rest_len, caps2) => .ok (some (c.utf8Size + rest_len), caps2)
        | .ok (none, caps2) => .ok (none, caps2)
      else .ok (none, caps)
termination_by tokens text _ => (str_bytes text, toks_measure tokens, 0)
decreasing_by
all_goals
  first
  | (apply lex3 <;> intros <;>
      (first
        | omega
        | (simp only [toks_measure_cons, toks_measure, tok_measure] at *; omega)))
  | (exact Prod.Lex.left _ _ (str_bytes_cons_lt _ _))
  | (have hb1 := drop_bytes_some _ _ _ hdr1
     (apply lex3 <;> intros <;>
      (first
        | omega
        | (simp only [toks_measure_cons, toks_measure, tok_measure] at *; omega))))
  | (have hb1 := drop_bytes_some _ _ _ hdr2
     (apply lex3 <;> intros <;>
      (first
        | omega
        | (simp only [toks_measure_cons, toks_measure, tok_measure] at *; omega))))
  | (have hb1 := drop_bytes_some _ _ _ hdl
     (apply lex3 <;> intros <;>
      (first
        | omega
        | (simp only [toks_measure_cons, toks_measure, tok_measure] at *; omega))))
  | (have hb1 := drop_bytes_some _ _ _ hdb
     (apply lex3 <;> intros <;>
      (first
        | omega
        | (simp only [toks_measure_cons, toks_measure, tok_measure] at *; omega))))
  | (have hb1 := drop_bytes_some _ _ _ hdrop
     apply lex3
     · omega
     · intro _
       simp only [toks_measure_cons, tok_measure]
       split <;> omega
     · intro ha hb
       simp only [toks_measure_cons, tok_measure] at hb
       rcases hcond with hc | hc
       · omega
       · split at hb <;> omega)


def group_loop (inner_tokens : List Token) (id : Nat) (rest : List Token)
    (text : List Char) (caps : Captures) :
    Nat → Except Unit (Option Nat × Captures)
  | 0 => .ok (none, caps)
  | k + 1 =>
    match htake : take_bytes text k with
    | none => .error ()
    | some sub =>
      match match_here inner_tokens sub caps with
      | .error e => .error e
      | .ok (some group_len, inner_caps) =>
        if group_len = k then
          match set_capture inner_caps id sub with
          | .error e => .error e
          | .ok inner_caps2 =>
            match hdg : drop_bytes text group_len with
            | none => .error ()
            | some text2 =>
              match match_here rest text2 inner_caps2 with
              | .error e => .error e
              | .ok (some rest_len, final_caps) => .ok (some (group_len + rest_len), final_caps)
              | .ok (none, _) => group_loop inner_tokens id rest text caps k
        else group_loop inner_tokens id rest text caps k
      | .ok (none, _) => group_loop inner_tokens id rest text caps k
termination_by k => (str_bytes text, toks_measure inner_tokens + toks_measure rest, k)
decreasing_by
all_goals
  first
  | (have hb1 := take_bytes_some _ _ _ htake
     (apply lex3 <;> intros <;>
      (first
        | omega
        | (simp only [toks_measure_cons, toks_measure, tok_measure] at *; omega))))
  | (have hb1 := drop_bytes_some _ _ _ hdg
     (apply lex3 <;> intros <;>
      (first
        | omega
        | (simp only [toks_measure_cons, toks_measure, tok_measure] at *; omega))))
  | (apply lex3 <;> intros <;>
      (first
        | omega
        | (simp only [toks_measure_cons, toks_measure, tok_measure] at *; omega)))

end


mutual
def match_here_fuel : Nat → List Token → List Char → Captures →
    Option (Except Unit (Option Nat × Captures))
  | 0, _, _, _ => none
  | fuel + 1, tokens, text, caps =>
    match tokens, text, caps with
    | [], _, caps => some (.ok (some 0, caps))
    | .EndAnchor :: _, text, caps =>
      if text.isEmpty then some (.ok (some 0, caps)) else some (.ok (none, caps))
    | .Alternation left right :: rest, text, caps =>
      match match_here_fuel fuel left text caps with
      | none => none
      | some (.error e) => some (.error e)
      | some (.ok (some left_len, left_caps)) =>
        (match drop_bytes text left_len with
         | none => some (.error ())
         | some text2 =>
           match match_here_fuel fuel rest text2 left_caps with
           | none => none
           | some (.error e) => some (.error e)
           | some (.ok (some rest_len, final_caps)) =>
             some (.ok (some (left_len + rest_len), final_caps))
           | some (.ok (none, _)) =>
             match match_here_fuel fuel right text caps with
           | none => none
           | some (.error e) => some (.error e)
           | some (.ok (some right_len, right_caps)) =>
             (match drop_bytes text right_len with
              | none => some (.error ())
              | some text3 =>
                match match_here_fuel fuel rest text3 right_caps with
                | none => none
                | some (.error e) => some (.error e)
                | some (.ok (some rest_len2, final_caps2)) =>
                  some (.ok (some (right_len + rest_len2), final_caps2))
                | some (.ok (none, _)) => some (.ok (none, caps)))
           | some (.ok (none, _)) => some (.ok (none, caps)))
      | some (.ok (none, _)) =>
        match match_here_fuel fuel right text caps with
           | none => none
           | some (.error e) => some (.error e)
           | some (.ok (some right_len, right_caps)) =>
             (match drop_bytes text right_len with
              | none => some (.error ())
              | some text3 =>
                match match_here_fuel fuel rest text3 right_caps with
                | none => none
                | some (.error e) => some (.error e)
                | some (.ok (some rest_len2, final_caps2)) =>
                  some (.ok (some (right_len + rest_len2), final_caps2))
                | some (.ok (none, _)) => some (.ok (none, caps)))
           | some (.ok (none, _)) => some (.ok (none, caps))
    | .Group inner_tokens id :: rest, text, caps =>
      group_loop_fuel fuel inner_tokens id rest text (resize_captures caps id) (str_bytes text + 1)
    | .Backreference n :: rest, text, caps =>
      match caps.get? (usize_sub_one n) with
      | some (some captured_val) =>
        if captured_val.isPrefixOf text then
          match drop_bytes text (str_bytes captured_val) with
          | none => some (.error ())
          | some text2 =>
            match match_here_fuel fuel rest text2 caps with
            | none => none
            | some (.error e) => some (.error e)
            | some (.ok (some rest_len, caps2)) =>
              some (.ok (some (str_bytes captured_val + rest_len), caps2))
            | some (.ok (none, caps2)) => some (.ok (none, caps2))
        else some (.ok (none, caps))
      | _ => some (.ok (none, caps))
    | .Quantifier inner mn mx :: rest, text, caps =>
      if mx = some 0 then
        match_here_fuel fuel rest text caps
      else
        match match_here_fuel fuel [inner] text caps with
        | none => none
        | some (.error e) => some (.error e)
        | some (.ok (some inner_len, caps1)) =>
          if 0 < inner_len ∨ 0 < mn then
            match drop_bytes text inner_len with
            | none => some (.error ())
            | some text2 =>
              match match_here_fuel fuel
                  (.Quantifier inner (if 0 < mn then mn - 1 else 0) (mx.map (fun m => m - 1)) :: rest)
                  text2 caps1 with
              | none => none
              | some (.error e) => some (.error e)
              | some (.ok (some total_len, caps2)) =>
                some (.ok (some (inner_len + total_len), caps2))
              | some (.ok (none, _)) =>
                if mn = 0 then match_here_fuel fuel rest text caps else some (.ok (none, caps))
          else
            if mn = 0 then match_here_fuel fuel rest text caps else some (.ok (none, caps))
        | some (.ok (none, _)) =>
          if mn = 0 then match_here_fuel fuel rest text caps else some (.ok (none, caps))
    | token :: rest, text, caps =>
      match text with
      | [] => some (.ok (none, caps))
      | c :: text_rest =>
        if matches_token token c then
          match match_here_fuel fuel rest text_rest caps with
          | none => none
          | some (.error e) => some (.error e)
          | some (.ok (some rest_len, caps2)) => some (.ok (some (c.utf8Size + rest_len), caps2))
          | some (.ok (none, caps2)) => some (.ok (none, caps2))
        else some (.ok (none, caps))

def group_loop_fuel : Nat → List Token → Nat → List Token → List Char → Captures →
    Nat → Option (Except Unit (Option Nat × Captures))
  | 0, _, _, _, _, _, _ => none
  | fuel + 1, inner_tokens, id, rest, text, caps, k =>
    match k with
    | 0 => some (.ok (none, caps))
    | k + 1 =>
      match take_bytes text k with
      | none => some (.error ())
      | some sub =>
        match match_here_fuel fuel inner_tokens sub caps with
        | none => none
        | some (.error e) => some (.error e)
        | some (.ok (some group_len, inner_caps)) =>
          if group_len = k then
            match set_capture inner_caps id sub with
            | .error e => some (.error e)
            | .ok inner_caps2 =>
              match drop_bytes text group_len with
              | none => some (.error ())
              | some text2 =>
                match match_here_fuel fuel rest text2 inner_caps2 with
                | none => none
                | some (.error e) => some (.error e)
                | some (.ok (some rest_len, final_caps)) =>
                  some (.ok (some (group_len + rest_len), final_caps))
                | some (.ok (none, _)) => group_loop_fuel fuel inner_tokens id rest text caps k
          else group_loop_fuel fuel inner_tokens id rest text caps k
        | some (.ok (none, _)) => group_loop_fuel fuel inner_tokens id rest text caps k
end

-- quick sanity evaluations of the fuel interpreter
example :
    match_here_fuel 20 [.Literal 'a', .Literal 'b'] ['a', 'b', 'c'] [] =
      some (.ok (some 2, [])) := by rfl

example :
    match_here_fuel 50 [.Group [.Alternation [.Literal 'a'] [.Literal 'b', .Literal 'c']] 1,
      .Literal 'd'] ['b', 'c', 'd'] [] =
      some (.ok (some 3, [some ['b', 'c']])) := by rfl

-- the multibyte panic: pattern (a) against "é"
example :
    match_here_fuel 50 [.Group [.Literal 'a'] 1] ['é'] [] = some (.error ()) := by rfl

set_option maxHeartbeats 4000000 in
theorem fuel_mono : ∀ fuel,
    (∀ tokens text caps r, match_here_fuel fuel tokens text caps = some r →
      match_here_fuel (fuel + 1) tokens text caps = some r) ∧
    (∀ inner_tokens id rest text caps k r,
      group_loop_fuel fuel inner_tokens id rest text caps k = some r →
      group_loop_fuel (fuel + 1) inner_tokens id rest text caps k = some r) := by
  intro fuel
  induction fuel with
  | zero =>
    constructor
    · intro tokens text caps r h
      simp [match_here_fuel] at h
    · intro inner_tokens id rest text caps k r h
      simp [group_loop_fuel] at h
  | succ fuel ih =>
    obtain ⟨ih1, ih2⟩ := ih
    constructor
    · intro tokens text caps r h
      rw [match_here_fuel.eq_def] at h ⊢
      repeat' split at h
      all_goals try injection h with h
      all_goals try subst h
      all_goals
        first
        | rfl
        | exact Option.noConfusion h
        | (simp_all only [ih1, ih2, Option.some.injEq]; done)
        | simp_all
    · intro inner_tokens id rest text caps k r h
      rw [group_loop_fuel.eq_def] at h ⊢
      repeat' split at h
      all_goals try injection h with h
      all_goals try subst h
      all_goals
        first
        | rfl
        | exact Option.noConfusion h
        | (simp_all only [ih1, ih2, Option.some.injEq]; done)
        | simp_all

theorem fuel_mono_le {n m : Nat} (h : n ≤ m) :
    (∀ tokens text caps r, match_here_fuel n tokens text caps = some r →
      match_here_fuel m tokens text caps = some r) ∧
    (∀ inner_tokens id rest text caps k r,
      group_loop_fuel n inner_tokens id rest text caps k = some r →
      group_loop_fuel m inner_tokens id rest text caps k = some r) := by
  induction h with
  | refl => exact ⟨fun _ _ _ _ hh => hh, fun _ _ _ _ _ _ _ hh => hh⟩
  | step h2 ih =>
    obtain ⟨ih1, ih2⟩ := ih
    exact ⟨fun tokens text caps r hh => (fuel_mono _).1 _ _ _ _ (ih1 _ _ _ _ hh),
           fun a b c d e f g hh => (fuel_mono _).2 _ _ _ _ _ _ _ (ih2 _ _ _ _ _ _ _ hh)⟩


theorem mhf_le {n m : Nat} (hnm : n ≤ m) {tokens : List Token} {text : List Char}
    {caps : Captures} {r : Except Unit (Option Nat × Captures)}
    (h : match_here_fuel n tokens text caps = some r) :
    match_here_fuel m tokens text caps = some r :=
  (fuel_mono_le hnm).1 _ _ _ _ h

theorem glf_le {n m : Nat} (hnm : n ≤ m) {inner_tokens : List Token} {id : Nat}
    {rest : List Token} {text : List Char} {caps : Captures} {k : Nat}
    {r : Except Unit (Option Nat × Captures)}
    (h : group_loop_fuel n inner_tokens id rest text caps k = some r) :
    group_loop_fuel m inner_tokens id rest text caps k = some r :=
  (fuel_mono_le hnm).2 _ _ _ _ _ _ _ h

mutual

theorem match_here_total (tokens : List Token) (text : List Char) (caps : Captures) :
    ∃ n, match_here_fuel n tokens text caps = some (match_here tokens text caps) := by
  cases tokens with
  | nil => exact ⟨1, by rw [match_here]; rfl⟩
  | cons head rest =>
    cases head with
    | EndAnchor =>
      refine ⟨1, ?_⟩
      rw [match_here]
      cases text <;> rfl
    | Alternation left right =>
      obtain ⟨nL, hL⟩ := match_here_total left text caps
      rw [match_here]
      rcases hvL : match_here left text caps with e | ⟨_ | left_len, left_caps⟩
      · rw [hvL] at hL
        refine ⟨nL + 1, ?_⟩
        rw [match_here_fuel]
        simp only [hL, hvL]
      · -- left branch failed: right attempt
        rw [hvL] at hL
        simp only [hvL]
        obtain ⟨nR, hR⟩ := match_here_total right text caps
        rcases hvR : match_here right text caps with e | ⟨_ | right_len, right_caps⟩
        · rw [hvR] at hR
          refine ⟨nL + nR + 1, ?_⟩
          rw [match_here_fuel]
          simp only [mhf_le (by omega : nL ≤ nL + nR) hL,
            mhf_le (by omega : nR ≤ nL + nR) hR, hvR]
        · rw [hvR] at hR
          refine ⟨nL + nR + 1, ?_⟩
          rw [match_here_fuel]
          simp only [mhf_le (by omega : nL ≤ nL + nR) hL,
            mhf_le (by omega : nR ≤ nL + nR) hR, hvR]
        · rw [hvR] at hR
          simp only [hvR]
          rcases hdr1 : drop_bytes text right_len with _ | text3
          · refine ⟨nL + nR + 1, ?_⟩
            rw [match_here_fuel]
            simp only [mhf_le (by omega : nL ≤ nL + nR) hL,
              mhf_le (by omega : nR ≤ nL + nR) hR, hdr1, hvR]
          · obtain ⟨nR2, hR2⟩ := match_here_total rest text3 right_caps
            rcases hvR2 : match_here rest text3 right_caps with e | ⟨_ | rest_len2, final_caps2⟩ <;>
              rw [hvR2] at hR2 <;>
              refine ⟨nL + nR + nR2 + 1, ?_⟩ <;>
              rw [match_here_fuel] <;>
              simp only [mhf_le (by omega : nL ≤ nL + nR + nR2) hL,
                mhf_le (by omega : nR ≤ nL + nR + nR2) hR,
                mhf_le (by omega : nR2 ≤ nL + nR + nR2) hR2, hdr1, hvR, hvR2]
      · -- left branch matched
        rw [hvL] at hL
        simp only [hvL]
        rcases hdl : drop_bytes text left_len with _ | text2
        · refine ⟨nL + 1, ?_⟩
          rw [match_here_fuel]
          simp only [hL, hdl]
        · obtain ⟨nL2, hL2⟩ := match_here_total rest text2 left_caps
          rcases hvL2 : match_here rest text2 left_caps with e | ⟨_ | rest_len, final_caps⟩
          · rw [hvL2] at hL2
            refine ⟨nL + nL2 + 1, ?_⟩
            rw [match_here_fuel]
            simp only [mhf_le (by omega : nL ≤ nL + nL2) hL,
              mhf_le (by omega : nL2 ≤ nL + nL2) hL2, hdl, hvL2]
          · -- rest failed after left: right attempt
            rw [hvL2] at hL2
            simp only [hvL2]
            obtain ⟨nR, hR⟩ := match_here_total right text caps
            rcases hvR : match_here right text caps with e | ⟨_ | right_len, right_caps⟩
            · rw [hvR] at hR
              refine ⟨nL + nL2 + nR + 1, ?_⟩
              rw [match_here_fuel]
              simp only [mhf_le (by omega : nL ≤ nL + nL2 + nR) hL,
                mhf_le (by omega : nL2 ≤ nL + nL2 + nR) hL2,
                mhf_le (by omega : nR ≤ nL + nL2 + nR) hR, hdl, hvR]
            · rw [hvR] at hR
              refine ⟨nL + nL2 + nR + 1, ?_⟩
              rw [match_here_fuel]
              simp only [mhf_le (by omega : nL ≤ nL + nL2 + nR) hL,
                mhf_le (by omega : nL2 ≤ nL + nL2 + nR) hL2,
                mhf_le (by omega : nR ≤ nL + nL2 + nR) hR, hdl, hvR]
            · rw [hvR] at hR
              simp only [hvR]
              rcases hdr2 : drop_bytes text right_len with _ | text3
              · refine ⟨nL + nL2 + nR + 1, ?_⟩
                rw [match_here_fuel]
                simp only [mhf_le (by omega : nL ≤ nL + nL2 + nR) hL,
                  mhf_le (by omega : nL2 ≤ nL + nL2 + nR) hL2,
                  mhf_le (by omega : nR ≤ nL + nL2 + nR) hR, hdl, hdr2, hvR]
              · obtain ⟨nR2, hR2⟩ := match_here_total rest text3 right_caps
                rcases hvR2 : match_here rest text3 right_caps with
                    e | ⟨_ | rest_len2, final_caps2⟩ <;>
                  rw [hvR2] at hR2 <;>
                  refine ⟨nL + nL2 + nR + nR2 + 1, ?_⟩ <;>
                  rw [match_here_fuel] <;>
                  simp only [mhf_le (by omega : nL ≤ nL + nL2 + nR + nR2) hL,
                    mhf_le (by omega : nL2 ≤ nL + nL2 + nR + nR2) hL2,
                    mhf_le (by omega : nR ≤ nL + nL2 + nR + nR2) hR,
                    mhf_le (by omega : nR2 ≤ nL + nL2 + nR + nR2) hR2, hdl, hdr2, hvR, hvR2]
          · rw [hvL2] at hL2
            refine ⟨nL + nL2 + 1, ?_⟩
            rw [match_here_fuel]
            simp only [mhf_le (by omega : nL ≤ nL + nL2) hL,
              mhf_le (by omega : nL2 ≤ nL + nL2) hL2, hdl, hvL2]
    | Group inner_tokens gid =>
      obtain ⟨nG, hG⟩ := group_loop_total inner_tokens gid rest text
        (resize_captures caps gid) (str_bytes text + 1)
      refine ⟨nG + 1, ?_⟩
      rw [match_here_fuel, match_here]
      exact hG
    | Backreference n =>
      rw [match_here]
      rcases hget : caps.get? (usize_sub_one n) with _ | ⟨_ | captured_val⟩
      · exact ⟨1, by rw [match_here_fuel]; simp only [hget]⟩
      · exact ⟨1, by rw [match_here_fuel]; simp only [hget]⟩
      · simp only [hget]
        cases hpre : captured_val.isPrefixOf text
        · exact ⟨1, by rw [match_here_fuel]; simp only [hget, hpre]; rfl⟩
        · simp only [hpre]
          rcases hdb : drop_bytes text (str_bytes captured_val) with _ | text2
          · exact ⟨1, by rw [match_here_fuel]; simp only [hget, hpre, hdb]; rfl⟩
          · obtain ⟨n2, h2⟩ := match_here_total rest text2 caps
            rcases hv2 : match_here rest text2 caps with e | ⟨_ | rest_len, caps2⟩ <;>
              rw [hv2] at h2 <;>
              refine ⟨n2 + 1, ?_⟩ <;>
              rw [match_here_fuel] <;>
              simp only [hget, hpre, hdb, h2, hv2] <;> rfl
    | Quantifier inner mn mx =>
      rw [match_here]
      by_cases hq : mx = some 0
      · obtain ⟨n, hn⟩ := match_here_total rest text caps
        refine ⟨n + 1, ?_⟩
        rw [match_here_fuel]
        simp only [hq, if_pos, hn]
      · simp only [if_neg hq]
        obtain ⟨nI, hI⟩ := match_here_total [inner] text caps
        rcases hvI : match_here [inner] text caps with e | ⟨_ | inner_len, caps1⟩
        · rw [hvI] at hI
          refine ⟨nI + 1, ?_⟩
          rw [match_here_fuel]
          simp only [if_neg hq, hI]
        · -- inner failed: fallback
          rw [hvI] at hI
          simp only [hvI]
          by_cases hmn : mn = 0
          · obtain ⟨nF, hF⟩ := match_here_total rest text caps
            refine ⟨nI + nF + 1, ?_⟩
            rw [match_here_fuel]
            simp only [if_neg hq, mhf_le (by omega : nI ≤ nI + nF) hI,
              mhf_le (by omega : nF ≤ nI + nF) hF, if_pos hmn]
          · refine ⟨nI + 1, ?_⟩
            rw [match_here_fuel]
            simp only [if_neg hq, hI, if_neg hmn]
        · rw [hvI] at hI
          simp only [hvI]
          by_cases hcond : 0 < inner_len ∨ 0 < mn
          · rw [dif_pos hcond]
            rcases hdrop : drop_bytes text inner_len with _ | text2
            · refine ⟨nI + 1, ?_⟩
              rw [match_here_fuel]
              simp only [if_neg hq, hI, if_pos hcond, hdrop]
            · obtain ⟨nG, hG⟩ := match_here_total
                (.Quantifier inner (if 0 < mn then mn - 1 else 0)
                  (mx.map (fun m => m - 1)) :: rest) text2 caps1
              rcases hvG : match_here
                  (.Quantifier inner (if 0 < mn then mn - 1 else 0)
                    (mx.map (fun m => m - 1)) :: rest) text2 caps1 with
                  e | ⟨_ | total_len, caps2⟩
              · rw [hvG] at hG
                refine ⟨nI + nG + 1, ?_⟩
                rw [match_here_fuel]
                simp only [if_neg hq, mhf_le (by omega : nI ≤ nI + nG) hI,
                  mhf_le (by omega : nG ≤ nI + nG) hG, if_pos hcond, hdrop, hvG]
              · -- greedy failed: fallback
                rw [hvG] at hG
                simp only [hvG]
                by_cases hmn : mn = 0
                · obtain ⟨nF, hF⟩ := match_here_total rest text caps
                  refine ⟨nI + nG + nF + 1, ?_⟩
                  rw [match_here_fuel]
                  simp only [if_neg hq, mhf_le (by omega : nI ≤ nI + nG + nF) hI,
                    mhf_le (by omega : nG ≤ nI + nG + nF) hG,
                    mhf_le (by omega : nF ≤ nI + nG + nF) hF,
                    if_pos hcond, hdrop, hvG, if_pos hmn]
                · refine ⟨nI + nG + 1, ?_⟩
                  rw [match_here_fuel]
                  simp only [if_neg hq, mhf_le (by omega : nI ≤ nI + nG) hI,
                    mhf_le (by omega : nG ≤ nI + nG) hG,
                    if_pos hcond, hdrop, hvG, if_neg hmn]
              · rw [hvG] at hG
                refine ⟨nI + nG + 1, ?_⟩
                rw [match_here_fuel]
                simp only [if_neg hq, mhf_le (by omega : nI ≤ nI + nG) hI,
                  mhf_le (by omega : nG ≤ nI + nG) hG, if_pos hcond, hdrop, hvG]
          · rw [dif_neg hcond]
            by_cases hmn : mn = 0
            · obtain ⟨nF, hF⟩ := match_here_total rest text caps
              refine ⟨nI + nF + 1, ?_⟩
              rw [match_here_fuel]
              simp only [if_neg hq, mhf_le (by omega : nI ≤ nI + nF) hI,
                mhf_le (by omega : nF ≤ nI + nF) hF, if_neg hcond, if_pos hmn]
            · refine ⟨nI + 1, ?_⟩
              rw [match_here_fuel]
              simp only [if_neg hq, hI, if_neg hcond, if_neg hmn]
    | Literal c0 =>
      rcases text with _ | ⟨c, text_rest⟩
      · exact ⟨1, by simp only [match_here, match_here_fuel]⟩
      · cases hm : matches_token (.Literal c0) c
        · exact ⟨1, by simp only [match_here, match_here_fuel, hm]; rfl⟩
        · obtain ⟨n, hn⟩ := match_here_total rest text_rest caps
          rcases hv : match_here rest text_rest caps with e | ⟨_ | rest_len, caps2⟩ <;>
            rw [hv] at hn <;>
            refine ⟨n + 1, ?_⟩ <;>
            simp only [match_here, match_here_fuel, hm, hn, hv] <;> rfl
    | Digit =>
      rcases text with _ | ⟨c, text_rest⟩
      · exact ⟨1, by simp only [match_here, match_here_fuel]⟩
      · cases hm : matches_token .Digit c
        · exact ⟨1, by simp only [match_here, match_here_fuel, hm]; rfl⟩
        · obtain ⟨n, hn⟩ := match_here_total rest text_rest caps
          rcases hv : match_here rest text_rest caps with e | ⟨_ | rest_len, caps2⟩ <;>
            rw [hv] at hn <;>
            refine ⟨n + 1, ?_⟩ <;>
            simp only [match_here, match_here_fuel, hm, hn, hv] <;> rfl
    | Alphanumeric =>
      rcases text with _ | ⟨c, text_rest⟩
      · exact ⟨1, by simp only [match_here, match_here_fuel]⟩
      · cases hm : matches_token .Alphanumeric c
        · exact ⟨1, by simp only [match_here, match_here_fuel, hm]; rfl⟩
        · obtain ⟨n, hn⟩ := match_here_total rest text_rest caps
          rcases hv : match_here rest text_rest caps with e | ⟨_ | rest_len, caps2⟩ <;>
            rw [hv] at hn <;>
            refine ⟨n + 1, ?_⟩ <;>
            simp only [match_here, match_here_fuel, hm, hn, hv] <;> rfl
    | Wildcard =>
      rcases text with _ | ⟨c, text_rest⟩
      · exact ⟨1, by simp only [match_here, match_here_fuel]⟩
      · cases hm : matches_token .Wildcard c
        · exact ⟨1, by simp only [match_here, match_here_fuel, hm]; rfl⟩
        · obtain ⟨n, hn⟩ := match_here_total rest text_rest caps
          rcases hv : match_here rest text_rest caps with e | ⟨_ | rest_len, caps2⟩ <;>
            rw [hv] at hn <;>
            refine ⟨n + 1, ?_⟩ <;>
            simp only [match_here, match_here_fuel, hm, hn, hv] <;> rfl
    | BracketGroup members gt =>
      rcases text with _ | ⟨c, text_rest⟩
      · exact ⟨1, by simp only [match_here, match_here_fuel]⟩
      · cases hm : matches_token (.BracketGroup members gt) c
        · exact ⟨1, by simp only [match_here, match_here_fuel, hm]; rfl⟩
        · obtain ⟨n, hn⟩ := match_here_total rest text_rest caps
          rcases hv : match_here rest text_rest caps with e | ⟨_ | rest_len, caps2⟩ <;>
            rw [hv] at hn <;>
            refine ⟨n + 1, ?_⟩ <;>
            simp only [match_here, match_here_fuel, hm, hn, hv] <;> rfl
termination_by (str_bytes text, toks_measure tokens, 0)
decreasing_by
all_goals
  first
  | (apply lex3 <;> intros <;>
      (first
        | omega
        | (simp only [toks_measure_cons, toks_measure, tok_measure] at *; omega)))
  | (exact Prod.Lex.left _ _ (str_bytes_cons_lt _ _))
  | (have hb1 := drop_bytes_some _ _ _ hdr1
     (apply lex3 <;> intros <;>
      (first
        | omega
        | (simp only [toks_measure_cons, toks_measure, tok_measure] at *; omega))))
  | (have hb1 := drop_bytes_some _ _ _ hdr2
     (apply lex3 <;> intros <;>
      (first
        | omega
        | (simp only [toks_measure_cons, toks_measure, tok_measure] at *; omega))))
  | (have hb1 := drop_bytes_some _ _ _ hdl
     (apply lex3 <;> intros <;>
      (first
        | omega
        | (simp only [toks_measure_cons, toks_measure, tok_measure] at *; omega))))
  | (have hb1 := drop_bytes_some _ _ _ hdb
     (apply lex3 <;> intros <;>
      (first
        | omega
        | (simp only [toks_measure_cons, toks_measure, tok_measure] at *; omega))))
  | (have hb1 := drop_bytes_some _ _ _ hdrop
     apply lex3
     · omega
     · intro _
       simp only [toks_measure_cons, tok_measure]
       split <;> omega
     · intro ha hb
       simp only [toks_measure_cons, tok_measure] at hb
       rcases hcond with hc | hc
       · omega
       · split at hb <;> omega)

theorem group_loop_total (inner_tokens : List Token) (id : Nat) (rest : List Token)
    (text : List Char) (caps : Captures) (k : Nat) :
    ∃ n, group_loop_fuel n inner_tokens id rest text caps k =
      some (group_loop inner_tokens id rest text caps k) := by
  cases k with
  | zero => exact ⟨1, by rw [group_loop]; rfl⟩
  | succ k =>
    rw [group_loop]
    rcases htake : take_bytes text k with _ | sub
    · exact ⟨1, by rw [group_loop_fuel]; simp only [htake]⟩
    · simp only [htake]
      obtain ⟨nI, hI⟩ := match_here_total inner_tokens sub caps
      rcases hvI : match_here inner_tokens sub caps with e | ⟨_ | group_len, inner_caps⟩
      · rw [hvI] at hI
        refine ⟨nI + 1, ?_⟩
        rw [group_loop_fuel]
        simp only [htake, hI]
      · rw [hvI] at hI
        simp only [hvI]
        obtain ⟨nC, hC⟩ := group_loop_total inner_tokens id rest text caps k
        refine ⟨nI + nC + 1, ?_⟩
        rw [group_loop_fuel]
        simp only [htake, mhf_le (by omega : nI ≤ nI + nC) hI,
          glf_le (by omega : nC ≤ nI + nC) hC, hvI]
      · rw [hvI] at hI
        simp only [hvI]
        by_cases hlen : group_len = k
        · simp only [if_pos hlen]
          rcases hset : set_capture inner_caps id sub with e | inner_caps2
          · refine ⟨nI + 1, ?_⟩
            rw [group_loop_fuel]
            simp only [htake, hI, if_pos hlen, hset]
          · simp only [hset]
            rcases hdg : drop_bytes text group_len with _ | text2
            · refine ⟨nI + 1, ?_⟩
              rw [group_loop_fuel]
              simp only [htake, hI, if_pos hlen, hset, hdg]
            · simp only [hdg]
              obtain ⟨nR, hR⟩ := match_here_total rest text2 inner_caps2
              rcases hvR : match_here rest text2 inner_caps2 with e | ⟨_ | rest_len, final_caps⟩
              · rw [hvR] at hR
                refine ⟨nI + nR + 1, ?_⟩
                rw [group_loop_fuel]
                simp only [htake, mhf_le (by omega : nI ≤ nI + nR) hI,
                  mhf_le (by omega : nR ≤ nI + nR) hR, if_pos hlen, hset, hdg, hvR]
              · rw [hvR] at hR
                simp only [hvR]
                obtain ⟨nC, hC⟩ := group_loop_total inner_tokens id rest text caps k
                refine ⟨nI + nR + nC + 1, ?_⟩
                rw [group_loop_fuel]
                simp only [htake, mhf_le (by omega : nI ≤ nI + nR + nC) hI,
                  mhf_le (by omega : nR ≤ nI + nR + nC) hR,
                  glf_le (by omega : nC ≤ nI + nR + nC) hC, if_pos hlen, hset, hdg, hvR]
              · rw [hvR] at hR
                refine ⟨nI + nR + 1, ?_⟩
                rw [group_loop_fuel]
                simp only [htake, mhf_le (by omega : nI ≤ nI + nR) hI,
                  mhf_le (by omega : nR ≤ nI + nR) hR, if_pos hlen, hset, hdg, hvR]
        · simp only [if_neg hlen]
          obtain ⟨nC, hC⟩ := group_loop_total inner_tokens id rest text caps k
          refine ⟨nI + nC + 1, ?_⟩
          rw [group_loop_fuel]
          simp only [htake, mhf_le (by omega : nI ≤ nI + nC) hI,
            glf_le (by omega : nC ≤ nI + nC) hC, if_neg hlen, hvI]
termination_by (str_bytes text, toks_measure inner_tokens + toks_measure rest, k)
decreasing_by
all_goals
  first
  | (have hb1 := take_bytes_some _ _ _ htake
     (apply lex3 <;> intros <;>
      (first
        | omega
        | (simp only [toks_measure_cons, toks_measure, tok_measure] at *; omega))))
  | (have hb1 := drop_bytes_some _ _ _ hdg
     (apply lex3 <;> intros <;>
      (first
        | omega
        | (simp only [toks_measure_cons, toks_measure, tok_measure] at *; omega))))
  | (apply lex3 <;> intros <;>
      (first
        | omega
        | (simp only [toks_measure_cons, toks_measure, tok_measure] at *; omega)))

end

/-- Transfer a fuel-interpreter computation to the matcher itself. -/
theorem match_here_eval {N : Nat} {tokens : List Token} {text : List Char} {caps : Captures}
    {r : Except Unit (Option Nat × Captures)}
    (h : match_here_fuel N tokens text caps = some r) :
    match_here tokens text caps = r := by
  obtain ⟨n, hn⟩ := match_here_total tokens text caps
  have h1 := mhf_le (Nat.le_add_right N n) h
  have h2 := mhf_le (Nat.le_add_left n N) hn
  rw [h1] at h2
  exact (Option.some.inj h2).symm


/-! ## Parser (`src/regex/parser.rs`) -/

/-- Scan characters up to (and consuming) the first occurrence of `delim`,
returning the scanned characters and the remainder; an unterminated scan
consumes everything (`[...]` classes and `{...}` quantifier bodies). -/
def scan_until (delim : Char) : List Char → List Char × List Char
  | [] => ([], [])
  | c :: cs =>
    if c = delim then ([], cs)
    else
      match scan_until delim cs with
      | (a, b) => (c :: a, b)

/-- The `(` arm's buffer scan: collect characters until the matching `)`
(depth-counted over raw `(` / `)`), consuming the closing parenthesis;
an unterminated group consumes everything. -/
def scan_group : List Char → Nat → List Char × List Char
  | [], _ => ([], [])
  | c :: cs, depth =>
    if c = '(' then
      match scan_group cs (depth + 1) with
      | (a, b) => (c :: a, b)
    else if c = ')' then
      if depth = 1 then ([], cs)
      else
        match scan_group cs (depth - 1) with
        | (a, b) => (c :: a, b)
    else
      match scan_group cs depth with
      | (a, b) => (c :: a, b)

/-- The per-character depth update of the top-level `|` split (the depth
counter is an `i32` in the source, hence `Int` here). -/
def split_depth_step (c : Char) (depth : Int) : Int :=
  if c = '(' then depth + 1 else if c = ')' then depth - 1 else depth

/-- Split a group buffer on `|` at parenthesis depth zero. -/
def split_top_level : List Char → Int → List Char → List (List Char)
  | [], _, cur => [cur.reverse]
  | c :: cs, depth, cur =>
    if c = '|' ∧ split_depth_step c depth = 0 then
      cur.reverse :: split_top_level cs (split_depth_step c depth) []
    else
      split_top_level cs (split_depth_step c depth) (c :: cur)

/-- `str::split(',')`. -/
def split_comma : List Char → List (List Char)
  | [] => [[]]
  | c :: cs =>
    if c = ',' then [] :: split_comma cs
    else
      match split_comma cs with
      | p :: ps => (c :: p) :: ps
      | [] => [[c]]

/-- `str::trim` (whitespace from both ends). -/
def trim_chars (s : List Char) : List Char :=
  ((s.dropWhile Char.isWhitespace).reverse.dropWhile Char.isWhitespace).reverse

/-- Rust `str::parse::<usize>()`: optional `+` sign followed by one or more
ASCII digits, rejecting values beyond `usize::MAX`. -/
def parse_usize (s : List Char) : Option Nat :=
  match (match s with | '+' :: r => r | _ => s) with
  | [] => none
  | digits =>
    if digits.all Char.isDigit then
      if digits.foldl (fun a c => a * 10 + (c.toNat - '0'.toNat)) 0 ≤ usize_max then
        some (digits.foldl (fun a c => a * 10 + (c.toNat - '0'.toNat)) 0)
      else none
    else none

/-- Total length of a list of char lists (termination measure helper). -/
def charss_len : List (List Char) → Nat
  | [] => 0
  | p :: ps => p.length + charss_len ps

theorem scan_until_len (delim : Char) :
    ∀ s : List Char, (scan_until delim s).1.length + (scan_until delim s).2.length ≤ s.length := by
  intro s
  induction s with
  | nil => simp [scan_until]
  | cons c cs ih =>
    simp only [scan_until]
    split
    · simp
    · rcases hs : scan_until delim cs with ⟨a, b⟩
      rw [hs] at ih
      simp only [hs, List.length_cons]
      simp only [List.length_cons] at ih ⊢
      omega

theorem scan_group_len :
    ∀ (s : List Char) (depth : Nat),
      (scan_group s depth).1.length + (scan_group s depth).2.length ≤ s.length := by
  intro s
  induction s with
  | nil => intro depth; simp [scan_group]
  | cons c cs ih =>
    intro depth
    simp only [scan_group]
    split
    · rcases hs : scan_group cs (depth + 1) with ⟨a, b⟩
      have := ih (depth + 1)
      rw [hs] at this
      simp only [hs, List.length_cons]
      simp only [List.length_cons] at this ⊢
      omega
    · split
      · split
        · simp
        · rcases hs : scan_group cs (depth - 1) with ⟨a, b⟩
          have := ih (depth - 1)
          rw [hs] at this
          simp only [hs, List.length_cons]
          simp only [List.length_cons] at this ⊢
          omega
      · rcases hs : scan_group cs depth with ⟨a, b⟩
        have := ih depth
        rw [hs] at this
        simp only [hs, List.length_cons]
        simp only [List.length_cons] at this ⊢
        omega

theorem split_top_level_len :
    ∀ (s : List Char) (depth : Int) (cur : List Char),
      charss_len (split_top_level s depth cur) + (split_top_level s depth cur).length ≤
        s.length + cur.length + 1 := by
  intro s
  induction s with
  | nil =>
    intro depth cur
    simp [split_top_level, charss_len]
  | cons c cs ih =>
    intro depth cur
    simp only [split_top_level]
    split
    · have := ih (split_depth_step c depth) []
      simp only [charss_len, List.length_cons, List.length_reverse, List.length_nil] at this ⊢
      omega
    · have := ih (split_depth_step c depth) (c :: cur)
      simp only [charss_len, List.length_cons] at this ⊢
      omega

theorem split_top_level_ne_nil :
    ∀ (s : List Char) (depth : Int) (cur : List Char), split_top_level s depth cur ≠ [] := by
  intro s
  induction s with
  | nil => intro depth cur; simp [split_top_level]
  | cons c cs ih =>
    intro depth cur
    simp only [split_top_level]
    split
    · simp
    · exact ih _ _

theorem lex2 {a a' b b' : Nat} (h1 : a ≤ a') (h2 : a = a' → b < b') :
    Prod.Lex (· < ·) (· < ·) (a, b) (a', b') := by
  rcases Nat.lt_or_ge a a' with h | h
  · exact Prod.Lex.left _ _ h
  · have ha : a = a' := Nat.le_antisymm h1 h
    subst ha
    exact Prod.Lex.right _ (h2 rfl)

theorem scan_until_len_eq {delim : Char} {s a b : List Char} (h : scan_until delim s = (a, b)) :
    a.length + b.length ≤ s.length := by
  have := scan_until_len delim s
  rw [h] at this
  exact this

theorem scan_group_len_eq {s a b : List Char} {depth : Nat} (h : scan_group s depth = (a, b)) :
    a.length + b.length ≤ s.length := by
  have := scan_group_len s depth
  rw [h] at this
  exact this

theorem split_top_level_len_eq {s cur : List Char} {depth : Int} {parts : List (List Char)}
    (h : split_top_level s depth cur = parts) :
    charss_len parts + parts.length ≤ s.length + cur.length + 1 := by
  have := split_top_level_len s depth cur
  rw [h] at this
  exact this

mutual

/-- The `while let Some(c) = chars.next()` loop of `parse_pattern` in
`src/regex/parser.rs`. `acc` holds the emitted tokens in reverse (its head is
the most recently pushed token, i.e. the `tokens.pop()` candidate), and `ctr`
is the threaded group-id counter. -/
def parse_loop : List Char → Nat → List Token → List Token × Nat
  | [], ctr, acc => (acc.reverse, ctr)
  | '\\' :: rest, ctr, acc =>
    match rest with
    | [] => (acc.reverse, ctr)
    | 'd' :: rest2 => parse_loop rest2 ctr (.Digit :: acc)
    | 'w' :: rest2 => parse_loop rest2 ctr (.Alphanumeric :: acc)
    | d :: rest2 =>
      if d.isDigit then parse_loop rest2 ctr (.Backreference (d.toNat - '0'.toNat) :: acc)
      else parse_loop rest2 ctr (.Literal d :: acc)
  | '$' :: rest, ctr, acc => parse_loop rest ctr (.EndAnchor :: acc)
  | '[' :: rest, ctr, acc =>
    match rest with
    | '^' :: rest1 =>
      match hsu : scan_until ']' rest1 with
      | (members, rest2) => parse_loop rest2 ctr (.BracketGroup members .Negative :: acc)
    | rest0 =>
      match hsu2 : scan_until ']' rest0 with
      | (members, rest2) => parse_loop rest2 ctr (.BracketGroup members .Positive :: acc)
  | '(' :: rest, ctr, acc =>
    match hsg : scan_group rest 1 with
    | (buffer, rest1) =>
      match hsp : split_top_level buffer 0 [] with
      | [] => parse_loop rest1 (ctr + 1) (.Group [] (ctr + 1) :: acc)
      | [p0] =>
        match parse_loop p0 (ctr + 1) [] with
        | (ts, c1) => parse_loop rest1 c1 (.Group ts (ctr + 1) :: acc)
      | p0 :: p1 :: more =>
        match parse_loop p0 (ctr + 1) [] with
        | (t0, c1) =>
          match parse_loop p1 c1 [] with
          | (t1, c2) =>
            match alt_fold more (.Alternation t0 t1) c2 with
            | (alt_token, c3) => parse_loop rest1 c3 (.Group [alt_token] (ctr + 1) :: acc)
  | '{' :: rest, ctr, acc =>
    match hsu3 : scan_until '}' rest with
    | (buffer, rest1) =>
      match acc with
      | [] => parse_loop rest1 ctr []
      | prev :: acc_tail =>
        match split_comma buffer with
        | [] => parse_loop rest1 ctr (.Quantifier prev 0 (some 0) :: acc_tail)
        | p0 :: parts_rest =>
          if buffer.contains ',' then
            match parts_rest with
            | p1 :: _ =>
              parse_loop rest1 ctr
                (.Quantifier prev ((parse_usize (trim_chars p0)).getD 0)
                  (parse_usize (trim_chars p1)) :: acc_tail)
            | [] =>
              parse_loop rest1 ctr
                (.Quantifier prev ((parse_usize (trim_chars p0)).getD 0) none :: acc_tail)
          else
            parse_loop rest1 ctr
              (.Quantifier prev ((parse_usize (trim_chars p0)).getD 0)
                (some ((parse_usize (trim_chars p0)).getD 0)) :: acc_tail)
  | '+' :: rest, ctr, acc =>
    match acc with
    | [] => parse_loop rest ctr []
    | prev :: acc_tail => parse_loop rest ctr (.Quantifier prev 1 none :: acc_tail)
  | '?' :: rest, ctr, acc =>
    match acc with
    | [] => parse_loop rest ctr []
    | prev :: acc_tail => parse_loop rest ctr (.Quantifier prev 0 (some 1) :: acc_tail)
  | '*' :: rest, ctr, acc =>
    match acc with
    | [] => parse_loop rest ctr []
    | prev :: acc_tail => parse_loop rest ctr (.Quantifier prev 0 none :: acc_tail)
  | '.' :: rest, ctr, acc => parse_loop rest ctr (.Wildcard :: acc)
  | c :: rest, ctr, acc => parse_loop rest ctr (.Literal c :: acc)
termination_by s _ _ => (s.length, 0)
decreasing_by
all_goals
  first
  | (apply lex2 <;> intros <;>
     (first
       | omega
       | (simp only [List.length_cons] at *; omega)))
  | (have h1 := scan_until_len_eq hsu
     apply lex2 <;> intros <;> simp only [List.length_cons] at * <;> omega)
  | (have h1 := scan_until_len_eq hsu2
     apply lex2 <;> intros <;> simp only [List.length_cons] at * <;> omega)
  | (have h1 := scan_until_len_eq hsu3
     apply lex2 <;> intros <;> simp only [List.length_cons] at * <;> omega)
  | (have h1 := scan_group_len_eq hsg
     have h2 := split_top_level_len_eq hsp
     simp only [charss_len, List.length_cons, List.length_nil] at h1 h2 ⊢
     apply lex2 <;> intros <;> omega)

/-- The `for part in parts.iter().skip(2)` fold that left-nests extra
alternation branches. -/
def alt_fold : List (List Char) → Token → Nat → Token × Nat
  | [], t, c => (t, c)
  | p :: ps, t, c =>
    match parse_loop p c [] with
    | (tp, c2) => alt_fold ps (.Alternation [t] tp) c2
termination_by parts _ _ => (charss_len parts + 1, parts.length)
decreasing_by
all_goals
  simp only [charss_len, List.length_cons]
  apply lex2 <;> intros <;> omega

end

/-- `parse_pattern` from `src/regex/parser.rs` (tokens plus final counter). -/
def parse_pattern (pattern : List Char) (ctr : Nat) : List Token × Nat :=
  parse_loop pattern ctr []

/-- `parse_regex` from `src/regex/parser.rs`. -/
def parse_regex (pattern : List Char) : List Token :=
  (parse_pattern pattern 0).1


/-! ## Group-id bookkeeping (claim C7) -/

mutual
/-- The ids of the `Group` tokens inside one token, listed in the order the
parser assigned them (a group's own id precedes the ids inside its body,
matching left-to-right order of the opening parentheses). -/
def group_ids : Token → List Nat
  | .Quantifier inner _ _ => group_ids inner
  | .Alternation l r => group_ids_list l ++ group_ids_list r
  | .Group body id => id :: group_ids_list body
  | _ => []

/-- `group_ids` over a token sequence, left to right. -/
def group_ids_list : List Token → List Nat
  | [] => []
  | t :: ts => group_ids t ++ group_ids_list ts
end

theorem group_ids_list_append (a b : List Token) :
    group_ids_list (a ++ b) = group_ids_list a ++ group_ids_list b := by
  induction a with
  | nil => simp [group_ids_list]
  | cons t ts ih => simp [group_ids_list, ih]

theorem group_ids_list_reverse_cons (t : Token) (acc : List Token) :
    group_ids_list (acc.reverse ++ [t]) = group_ids_list acc.reverse ++ group_ids t := by
  rw [group_ids_list_append]
  simp [group_ids_list]

theorem range'_glue {a b c : Nat} (hab : a ≤ b) (hbc : b ≤ c) :
    List.range' (a + 1) (b - a) ++ List.range' (b + 1) (c - b) = List.range' (a + 1) (c - a) := by
  have h1 : b + 1 = a + 1 + 1 * (b - a) := by omega
  rw [h1, List.range'_append]
  congr 1
  omega

theorem range'_head_glue {a c : Nat} (hac : a < c) :
    (a + 1) :: List.range' (a + 1 + 1) (c - (a + 1)) = List.range' (a + 1) (c - a) := by
  have h1 : c - a = (c - (a + 1)) + 1 := by omega
  rw [h1, List.range'_succ]

theorem range'_group_glue {ctr c1 c2 : Nat} (h1 : ctr + 1 ≤ c1) (h2 : c1 ≤ c2) :
    (ctr + 1) :: (List.range' (ctr + 1 + 1) (c1 - (ctr + 1)) ++ List.range' (c1 + 1) (c2 - c1)) =
    List.range' (ctr + 1) (c2 - ctr) := by
  rw [range'_glue (by omega : ctr + 1 ≤ c1) (by omega : c1 ≤ c2), range'_head_glue (by omega)]

mutual

theorem parse_loop_gids (s : List Char) (ctr : Nat) (acc : List Token) :
    ctr ≤ (parse_loop s ctr acc).2 ∧
    group_ids_list (parse_loop s ctr acc).1 =
      group_ids_list acc.reverse ++
        List.range' (ctr + 1) ((parse_loop s ctr acc).2 - ctr) := by
  rw [parse_loop.eq_def]
  split
  · -- []
    simp
  · -- '\\' :: rest
    rename_i rest
    split
    · simp
    · rename_i rest2
      have ih := parse_loop_gids rest2 ctr (.Digit :: acc)
      simpa [group_ids_list_reverse_cons, group_ids] using ih
    · rename_i rest2
      have ih := parse_loop_gids rest2 ctr (.Alphanumeric :: acc)
      simpa [group_ids_list_reverse_cons, group_ids] using ih
    · rename_i d rest2 hnd hnw
      by_cases hd : d.isDigit
      · simp only [hd, if_true]
        have ih := parse_loop_gids rest2 ctr (.Backreference (d.toNat - '0'.toNat) :: acc)
        simpa [group_ids_list_reverse_cons, group_ids] using ih
      · simp only [hd, if_false, Bool.false_eq_true]
        have ih := parse_loop_gids rest2 ctr (.Literal d :: acc)
        simpa [group_ids_list_reverse_cons, group_ids] using ih
  · -- '$' :: rest
    rename_i rest
    have ih := parse_loop_gids rest ctr (.EndAnchor :: acc)
    simpa [group_ids_list_reverse_cons, group_ids] using ih
  · -- '[' :: rest
    rename_i rest
    split
    · rename_i rest1
      split
      rename_i members rest2 hsu
      have ih := parse_loop_gids rest2 ctr (.BracketGroup members .Negative :: acc)
      simpa [group_ids_list_reverse_cons, group_ids] using ih
    · rename_i rest0 hnot
      split
      rename_i members rest2 hsu2
      have ih := parse_loop_gids rest2 ctr (.BracketGroup members .Positive :: acc)
      simpa [group_ids_list_reverse_cons, group_ids] using ih
  · -- '(' :: rest
    rename_i rest
    split
    rename_i buffer rest1 hsg
    split
    · -- parts = [] (unreachable but handled)
      rename_i hsp
      have ih := parse_loop_gids rest1 (ctr + 1) (.Group [] (ctr + 1) :: acc)
      rcases hrec : parse_loop rest1 (ctr + 1) (.Group [] (ctr + 1) :: acc) with ⟨toks, c2⟩
      rw [hrec] at ih
      obtain ⟨ih1, ih2⟩ := ih
      refine ⟨by omega, ?_⟩
      rw [ih2]
      simp only [List.reverse_cons, group_ids_list_reverse_cons, group_ids, group_ids_list,
        List.append_nil, List.singleton_append, List.append_assoc]
      rw [range'_head_glue (by omega)]
    · -- single part
      rename_i p0 hsp
      split
      rename_i ts c1 hp
      have ihp := parse_loop_gids p0 (ctr + 1) []
      rw [hp] at ihp
      simp only [List.reverse_nil, group_ids_list, List.nil_append] at ihp
      obtain ⟨ihp1, ihp2⟩ := ihp
      have ih := parse_loop_gids rest1 c1 (.Group ts (ctr + 1) :: acc)
      rcases hrec : parse_loop rest1 c1 (.Group ts (ctr + 1) :: acc) with ⟨toks, c2⟩
      rw [hrec] at ih
      obtain ⟨ih1, ih2⟩ := ih
      refine ⟨by omega, ?_⟩
      rw [ih2]
      simp only [List.reverse_cons, group_ids_list_reverse_cons, group_ids, List.cons_append,
        List.append_assoc, List.nil_append]
      rw [ihp2]
      try simp only [List.nil_append, List.append_assoc]
      rw [range'_group_glue (by omega) (by omega)]
    · -- two or more parts
      rename_i p0 p1 more hsp
      split
      rename_i t0 c1 hp0
      split
      rename_i t1 c2 hp1
      split
      rename_i alt_token c3 hf
      have ihp0 := parse_loop_gids p0 (ctr + 1) []
      rw [hp0] at ihp0
      simp only [List.reverse_nil, group_ids_list, List.nil_append] at ihp0
      obtain ⟨ihp01, ihp02⟩ := ihp0
      have ihp1 := parse_loop_gids p1 c1 []
      rw [hp1] at ihp1
      simp only [List.reverse_nil, group_ids_list, List.nil_append] at ihp1
      obtain ⟨ihp11, ihp12⟩ := ihp1
      have ihf := alt_fold_gids more (.Alternation t0 t1) c2
      rw [hf] at ihf
      obtain ⟨ihf1, ihf2⟩ := ihf
      have ih := parse_loop_gids rest1 c3 (.Group [alt_token] (ctr + 1) :: acc)
      rcases hrec : parse_loop rest1 c3 (.Group [alt_token] (ctr + 1) :: acc) with ⟨toks, c4⟩
      rw [hrec] at ih
      obtain ⟨ih1, ih2⟩ := ih
      refine ⟨by omega, ?_⟩
      rw [ih2]
      simp only [List.reverse_cons, group_ids_list_reverse_cons, group_ids, group_ids_list,
        List.append_nil, List.cons_append, List.append_assoc, List.nil_append]
      rw [ihf2]
      simp only [group_ids, group_ids_list, List.append_nil, List.nil_append, List.append_assoc]
      rw [ihp02, ihp12]
      try simp only [List.nil_append, List.append_assoc]
      have h23 : c2 ≤ c3 := ihf1
      have h34 : c3 ≤ c4 := ih1
      rw [range'_glue (by omega : c2 ≤ c3) (by omega : c3 ≤ c4),
        range'_glue (by omega : c1 ≤ c2) (by omega : c2 ≤ c4),
        range'_glue (by omega : ctr + 1 ≤ c1) (by omega : c1 ≤ c4),
        range'_head_glue (by omega : ctr < c4)]
  · -- '{' :: rest
    rename_i rest
    split
    rename_i buffer rest1 hsu3
    split
    · -- acc empty
      have ih := parse_loop_gids rest1 ctr []
      simpa using ih
    · rename_i prev acc_tail
      split
      · -- split_comma gave [] (unreachable but handled)
        have ih := parse_loop_gids rest1 ctr (.Quantifier prev 0 (some 0) :: acc_tail)
        simpa [group_ids_list_reverse_cons, group_ids] using ih
      · rename_i p0 parts_rest hps
        by_cases hbc : buffer.contains ','
        · simp only [hbc, if_true]
          split
          · rename_i p1 prest
            have ih := parse_loop_gids rest1 ctr
              (.Quantifier prev ((parse_usize (trim_chars p0)).getD 0)
                (parse_usize (trim_chars p1)) :: acc_tail)
            simpa [group_ids_list_reverse_cons, group_ids] using ih
          · have ih := parse_loop_gids rest1 ctr
              (.Quantifier prev ((parse_usize (trim_chars p0)).getD 0) none :: acc_tail)
            simpa [group_ids_list_reverse_cons, group_ids] using ih
        · simp only [hbc, if_false, Bool.false_eq_true]
          have ih := parse_loop_gids rest1 ctr
            (.Quantifier prev ((parse_usize (trim_chars p0)).getD 0)
              (some ((parse_usize (trim_chars p0)).getD 0)) :: acc_tail)
          simpa [group_ids_list_reverse_cons, group_ids] using ih
  · -- '+' :: rest
    rename_i rest
    split
    · have ih := parse_loop_gids rest ctr []
      simpa using ih
    · rename_i prev acc_tail
      have ih := parse_loop_gids rest ctr (.Quantifier prev 1 none :: acc_tail)
      simpa [group_ids_list_reverse_cons, group_ids] using ih
  · -- '?' :: rest
    rename_i rest
    split
    · have ih := parse_loop_gids rest ctr []
      simpa using ih
    · rename_i prev acc_tail
      have ih := parse_loop_gids rest ctr (.Quantifier prev 0 (some 1) :: acc_tail)
      simpa [group_ids_list_reverse_cons, group_ids] using ih
  · -- '*' :: rest
    rename_i rest
    split
    · have ih := parse_loop_gids rest ctr []
      simpa using ih
    · rename_i prev acc_tail
      have ih := parse_loop_gids rest ctr (.Quantifier prev 0 none :: acc_tail)
      simpa [group_ids_list_reverse_cons, group_ids] using ih
  · -- '.' :: rest
    rename_i rest
    have ih := parse_loop_gids rest ctr (.Wildcard :: acc)
    simpa [group_ids_list_reverse_cons, group_ids] using ih
  · -- catch-all literal
    rename_i c rest hA hB hC hD hE hF hG hH hI
    have ih := parse_loop_gids rest ctr (.Literal c :: acc)
    simpa [group_ids_list_reverse_cons, group_ids] using ih
termination_by (s.length, 0)
decreasing_by
all_goals
  subst_vars
  first
  | (apply lex2 <;> intros <;>
     (first
       | omega
       | (simp only [List.length_cons] at *; omega)))
  | (have h1 := scan_until_len_eq (by assumption)
     apply lex2 <;> intros <;> simp only [List.length_cons] at * <;> omega)
  | (have h1 := scan_group_len_eq (by assumption)
     have h2 := split_top_level_len_eq (by assumption)
     simp only [charss_len, List.length_cons, List.length_nil] at h1 h2 ⊢
     apply lex2 <;> intros <;> omega)

theorem alt_fold_gids (parts : List (List Char)) (t : Token) (c : Nat) :
    c ≤ (alt_fold parts t c).2 ∧
    group_ids (alt_fold parts t c).1 =
      group_ids t ++ List.range' (c + 1) ((alt_fold parts t c).2 - c) := by
  rw [alt_fold.eq_def]
  split
  · exact ⟨Nat.le_refl c, by simp⟩
  · rename_i p ps
    split
    rename_i tp c2 hp
    have ihp := parse_loop_gids p c []
    rw [hp] at ihp
    simp only [List.reverse_nil, group_ids_list, List.nil_append] at ihp
    obtain ⟨ihp1, ihp2⟩ := ihp
    have ihf := alt_fold_gids ps (.Alternation [t] tp) c2
    rcases hf : alt_fold ps (.Alternation [t] tp) c2 with ⟨t3, c3⟩
    rw [hf] at ihf
    obtain ⟨ihf1, ihf2⟩ := ihf
    refine ⟨by omega, ?_⟩
    rw [ihf2]
    simp only [group_ids, group_ids_list, List.append_nil, List.nil_append, List.append_assoc]
    rw [ihp2]
    try simp only [List.nil_append, List.append_assoc]
    rw [range'_glue (by omega : c ≤ c2) (by omega : c2 ≤ c3)]
termination_by (charss_len parts + 1, parts.length)
decreasing_by
all_goals
  subst_vars
  simp only [charss_len, List.length_cons]
  apply lex2 <;> intros <;> omega

end

/-- Claim C7 core: a parse from counter 0 assigns exactly the ids 1..n in order. -/
theorem parse_regex_gids (pattern : List Char) :
    group_ids_list (parse_regex pattern) =
      List.range' 1 ((parse_pattern pattern 0).2) := by
  have h := parse_loop_gids pattern 0 []
  obtain ⟨h1, h2⟩ := h
  simpa [parse_regex, parse_pattern, group_ids_list] using h2


/-! ## match_pattern, the unanchored search loop, and claim-level arm theorems -/

/-- `match_pattern` from `src/regex/matcher.rs`: run `match_here` with a fresh
empty capture vector and slice the matched prefix out of the input line. -/
def match_pattern (input_line : List Char) (tokens : List Token) :
    Except Unit (Option (List Char)) :=
  match match_here tokens input_line [] with
  | .error e => .error e
  | .ok (none, _) => .ok none
  | .ok (some len, _) =>
    match take_bytes input_line len with
    | none => .error ()
    | some s => .ok (some s)

/-- The unanchored retry loop of `process_input` in `src/search.rs`, up to its
first match: try `match_pattern` at the current position; on `None` advance one
character (`chars.next()`) and retry; stop at the end of the line. -/
def search_from (tokens : List Token) : List Char → Except Unit (Option (List Char))
  | [] =>
    match match_pattern [] tokens with
    | .error e => .error e
    | .ok (some s) => .ok (some s)
    | .ok none => .ok none
  | c :: cs =>
    match match_pattern (c :: cs) tokens with
    | .error e => .error e
    | .ok (some s) => .ok (some s)
    | .ok none => search_from tokens cs

/-- `resize_captures` only pads with `None`. -/
theorem resize_replicate (caps : Captures) (id : Nat) :
    ∃ k, resize_captures caps id = caps ++ List.replicate k none := by
  unfold resize_captures
  split
  · exact ⟨id - caps.length, rfl⟩
  · exact ⟨0, by simp⟩

set_option maxHeartbeats 4000000 in
/-- Fuel-interpreter side of claim C5: a failed match never commits captured
substrings — it returns the incoming captures, at most padded with `None`
entries by a `Group` arm's resize. -/
theorem match_fuel_none_caps : ∀ fuel,
    (∀ tokens text caps caps',
      match_here_fuel fuel tokens text caps = some (.ok (none, caps')) →
      ∃ k, caps' = caps ++ List.replicate k none) ∧
    (∀ inner_tokens id rest text caps k caps',
      group_loop_fuel fuel inner_tokens id rest text caps k = some (.ok (none, caps')) →
      caps' = caps) := by
  intro fuel
  induction fuel with
  | zero =>
    constructor
    · intro tokens text caps caps' h
      simp [match_here_fuel] at h
    · intro inner_tokens id rest text caps k caps' h
      simp [group_loop_fuel] at h
  | succ fuel ih =>
    obtain ⟨ih1, ih2⟩ := ih
    constructor
    · intro tokens text caps caps' h
      rw [match_here_fuel.eq_def] at h
      dsimp only at h
      repeat' split at h
      all_goals try injection h with h
      all_goals try injection h with h
      all_goals try injection h with h1 h2
      all_goals try subst h2
      all_goals try subst h
      all_goals
        first
        | exact Option.noConfusion h
        | exact Except.noConfusion h
        | (exfalso; simp at h1; done)
        | (exfalso; simp at h; done)
        | (refine ⟨0, ?_⟩; simp; done)
        | exact ih1 _ _ _ _ (by assumption)
        | (have hr := ih2 _ _ _ _ _ _ _ (by assumption)
           rw [hr]
           exact resize_replicate _ _)
        | (injection h1 with h3 h4
           exact absurd h3 (by simp))
        | (injection h1 with h3 h4
           subst h4
           exact ih1 _ _ _ _ (by assumption))
    · intro inner_tokens id rest text caps k caps' h
      rw [group_loop_fuel.eq_def] at h
      dsimp only at h
      repeat' split at h
      all_goals try injection h with h
      all_goals try injection h with h
      all_goals try injection h with h1 h2
      all_goals try subst h2
      all_goals try subst h
      all_goals
        first
        | exact Option.noConfusion h
        | exact Except.noConfusion h
        | (exfalso; simp at h1; done)
        | (exfalso; simp at h; done)
        | rfl
        | exact ih2 _ _ _ _ _ _ _ (by assumption)
        | (injection h1 with h3 h4
           exact absurd h3 (by simp))
        | (injection h1 with h3 h4
           subst h4
           exact ih2 _ _ _ _ _ _ _ (by assumption))

/-- Claim C5: a failed match leaks no captures — whenever `match_here` returns
`None` (so every speculative branch inside it failed), the capture state it
hands back is the incoming one, at most padded with fresh `None` slots by a
`Group` arm's resize; no captured substring recorded by a failed branch is
visible. -/
theorem match_here_none_caps {tokens : List Token} {text : List Char}
    {caps caps' : Captures} (h : match_here tokens text caps = .ok (none, caps')) :
    ∃ k, caps' = caps ++ List.replicate k none := by
  obtain ⟨n, hn⟩ := match_here_total tokens text caps
  rw [h] at hn
  exact (match_fuel_none_caps n).1 _ _ _ _ hn

/-! ## Spec-side formulation of the Group arm (claim C2) -/

/-- Modelled from the spec's words for `Group(body, id)`: the candidate
consumed lengths, "from the full remaining text length down to zero". -/
def group_try_lengths (text_bytes : Nat) : List Nat :=
  (List.range (text_bytes + 1)).reverse

/-- Modelled from the spec's words: one candidate length attempt — the body
must match exactly `try_len` bytes, the captured substring is recorded in the
(fresh copy of the) captures before the remainder of the outer pattern is
tried, and the whole attempt yields a result only if that continuation
succeeds. -/
def group_attempt (inner_tokens : List Token) (id : Nat) (rest : List Token)
    (text : List Char) (caps : Captures) (try_len : Nat) :
    Except Unit (Option (Nat × Captures)) :=
  match take_bytes text try_len with
  | none => .error ()
  | some sub =>
    match match_here inner_tokens sub caps with
    | .error e => .error e
    | .ok (some group_len, inner_caps) =>
      if group_len = try_len then
        match set_capture inner_caps id sub with
        | .error e => .error e
        | .ok inner_caps2 =>
          match drop_bytes text group_len with
          | none => .error ()
          | some text2 =>
            match match_here rest text2 inner_caps2 with
            | .error e => .error e
            | .ok (some rest_len, final_caps) => .ok (some (group_len + rest_len, final_caps))
            | .ok (none, _) => .ok none
      else .ok none
    | .ok (none, _) => .ok none

/-- Modelled from the spec's words: stop at the first candidate that yields a
full success (an error is a propagated panic). -/
def first_success (f : Nat → Except Unit (Option (Nat × Captures))) :
    List Nat → Except Unit (Option (Nat × Captures))
  | [] => .ok none
  | n :: ns =>
    match f n with
    | .error e => .error e
    | .ok (some r) => .ok (some r)
    | .ok none => first_success f ns

theorem group_loop_eq_first_success (inner_tokens : List Token) (id : Nat)
    (rest : List Token) (text : List Char) (caps : Captures) : ∀ k,
    group_loop inner_tokens id rest text caps k =
      (match first_success (group_attempt inner_tokens id rest text caps)
          ((List.range k).reverse) with
       | .error e => .error e
       | .ok (some (len, fcaps)) => .ok (some len, fcaps)
       | .ok none => .ok (none, caps)) := by
  intro k
  induction k with
  | zero =>
    rw [group_loop]
    simp [first_success]
  | succ k ihk =>
    rw [group_loop]
    have hrange : (List.range (k + 1)).reverse = k :: (List.range k).reverse := by
      rw [List.range_succ]
      simp
    rw [hrange]
    simp only [first_success, group_attempt]
    rcases htake : take_bytes text k with _ | sub
    · rfl
    · simp only []
      rcases hv : match_here inner_tokens sub caps with e | ⟨_ | group_len, inner_caps⟩
      · rfl
      · exact ihk
      · simp only []
        by_cases hlen : group_len = k
        · subst hlen
          rw [if_pos rfl, if_pos rfl]
          rcases hset : set_capture inner_caps id sub with e | inner_caps2
          · rfl
          · simp only []
            rcases hdg2 : drop_bytes text group_len with _ | text2
            · rfl
            · simp only []
              rcases hr : match_here rest text2 inner_caps2 with e | ⟨_ | rest_len, final_caps⟩
              · rfl
              · exact ihk
              · rfl
        · rw [if_neg hlen, if_neg hlen]
          exact ihk

/-- Claim C2: the `Group` arm is exactly greedy-longest-first search over the
candidate lengths, with the capture recorded in a fresh copy and committed
only when the continuation succeeds. -/
theorem match_here_group_arm (inner_tokens : List Token) (id : Nat)
    (rest : List Token) (text : List Char) (caps : Captures) :
    match_here (.Group inner_tokens id :: rest) text caps =
      (match first_success
          (group_attempt inner_tokens id rest text (resize_captures caps id))
          (group_try_lengths (str_bytes text)) with
       | .error e => .error e
       | .ok (some (len, fcaps)) => .ok (some len, fcaps)
       | .ok none => .ok (none, resize_captures caps id)) := by
  rw [match_here, group_loop_eq_first_success]
  rfl

/-- Claim C3: the `Quantifier(inner, min, max)` arm is greedy exactly as the
spec describes: `max = Some 0` skips straight to the rest of the pattern; the
greedy path first matches one `inner` occurrence and recurses (with `min` and
`max` decremented, floored at zero) only when that occurrence consumed
something or `min > 0`; every failing greedy path falls back to matching the
rest directly — with the original (restored) captures — and that fallback is
taken only when `min` has reached zero, otherwise the attempt fails. -/
theorem match_here_quantifier_arm (inner : Token) (mn : Nat) (mx : Option Nat)
    (rest : List Token) (text : List Char) (caps : Captures) :
    match_here (.Quantifier inner mn mx :: rest) text caps =
      (if mx = some 0 then match_here rest text caps
       else
        match match_here [inner] text caps with
        | .error e => .error e
        | .ok (some inner_len, caps1) =>
          if 0 < inner_len ∨ 0 < mn then
            match drop_bytes text inner_len with
            | none => .error ()
            | some text2 =>
              match match_here
                  (.Quantifier inner (if 0 < mn then mn - 1 else 0)
                    (mx.map (fun m => m - 1)) :: rest) text2 caps1 with
              | .error e => .error e
              | .ok (some total_len, caps2) => .ok (some (inner_len + total_len), caps2)
              | .ok (none, _) =>
                if mn = 0 then match_here rest text caps else .ok (none, caps)
          else if mn = 0 then match_here rest text caps else .ok (none, caps)
        | .ok (none, _) =>
          if mn = 0 then match_here rest text caps else .ok (none, caps)) := by
  rw [match_here]
  by_cases hmx : mx = some 0
  · rw [if_pos hmx, if_pos hmx]
  · rw [if_neg hmx, if_neg hmx]
    rcases hv : match_here [inner] text caps with e | ⟨_ | inner_len, caps1⟩
    · rfl
    · rfl
    · by_cases hcond : 0 < inner_len ∨ 0 < mn
      · simp only [dif_pos hcond, if_pos hcond]
        rcases hdr : drop_bytes text inner_len with _ | text2
        · rfl
        · rfl
      · simp only [dif_neg hcond, if_neg hcond]


/-! ## Claim-level theorems and their witnesses -/

/-! ## Concrete parses used by the claim-level theorems -/

theorem parse_group_a_eq : parse_regex "(a)".toList = [Token.Group [Token.Literal 'a'] 1] := by
  simp [parse_regex, parse_pattern, parse_loop, scan_group, split_top_level, split_depth_step,
    alt_fold, scan_until, split_comma]

theorem parse_altgroup_eq : parse_regex "(a|bc)d".toList =
    [Token.Group [Token.Alternation [Token.Literal 'a'] [Token.Literal 'b', Token.Literal 'c']] 1,
     Token.Literal 'd'] := by
  simp [parse_regex, parse_pattern, parse_loop, scan_group, split_top_level, split_depth_step,
    alt_fold, scan_until, split_comma]

theorem parse_dot_eq : parse_regex ".".toList = [Token.Wildcard] := by
  simp [parse_regex, parse_pattern, parse_loop]

theorem parse_dollar_eq : parse_regex "$".toList = [Token.EndAnchor] := by
  simp [parse_regex, parse_pattern, parse_loop]

theorem parse_topbar_eq : parse_regex "a|b".toList =
    [Token.Literal 'a', Token.Literal '|', Token.Literal 'b'] := by
  simp [parse_regex, parse_pattern, parse_loop]

/-! ## Byte-slicing helper lemmas -/

/-- Taking the full byte length of a text returns the text itself. -/
theorem take_bytes_full (s : List Char) : take_bytes s (str_bytes s) = some s := by
  induction s with
  | nil => rfl
  | cons c cs ih =>
    have hpos : 0 < c.utf8Size := Char.utf8Size_pos c
    have hs : str_bytes (c :: cs) = (c.utf8Size + str_bytes cs - 1) + 1 := by
      rw [str_bytes]; omega
    rw [hs, take_bytes]
    have hle : c.utf8Size ≤ (c.utf8Size + str_bytes cs - 1) + 1 := by omega
    rw [if_pos hle]
    have harg : c.utf8Size + str_bytes cs - 1 + 1 - c.utf8Size = str_bytes cs := by omega
    rw [harg, ih]
    rfl

theorem take_bytes_single (c : Char) : take_bytes [c] c.utf8Size = some [c] := by
  have h := take_bytes_full [c]
  simpa [str_bytes] using h

/-- A lone `Wildcard` token consumes exactly one character. -/
theorem match_here_wildcard_single (c : Char) :
    match_here [Token.Wildcard] [c] [] = .ok (some c.utf8Size, []) := by
  have h0 : match_here [] ([] : List Char) ([] : Captures) = .ok (some 0, []) := by
    rw [match_here]
  rw [match_here.eq_def]
  dsimp only
  simp [matches_token, h0]

/-! ## Concrete matcher runs used by the claim-level theorems -/

theorem mh_group_a_multibyte :
    match_here [Token.Group [Token.Literal 'a'] 1] ['é'] [] = .error () := by
  have h : match_here_fuel 80 [Token.Group [Token.Literal 'a'] 1] ['é'] [] =
      some (.error ()) := by rfl
  exact match_here_eval h

theorem mp_altgroup_abcd_none :
    match_pattern ['a', 'b', 'c', 'd'] [Token.Group [Token.Alternation [Token.Literal 'a']
        [Token.Literal 'b', Token.Literal 'c']] 1, Token.Literal 'd'] = .ok none := by
  have h : match_here_fuel 80 [Token.Group [Token.Alternation [Token.Literal 'a']
      [Token.Literal 'b', Token.Literal 'c']] 1, Token.Literal 'd'] ['a', 'b', 'c', 'd'] [] =
      some (.ok (none, [none])) := by rfl
  have hm := match_here_eval h
  simp only [match_pattern, hm]

theorem mp_altgroup_bcd_some :
    match_pattern ['b', 'c', 'd'] [Token.Group [Token.Alternation [Token.Literal 'a']
        [Token.Literal 'b', Token.Literal 'c']] 1, Token.Literal 'd'] =
      .ok (some ['b', 'c', 'd']) := by
  have h : match_here_fuel 80 [Token.Group [Token.Alternation [Token.Literal 'a']
      [Token.Literal 'b', Token.Literal 'c']] 1, Token.Literal 'd'] ['b', 'c', 'd'] [] =
      some (.ok (some 3, [some ['b', 'c']])) := by rfl
  have hm := match_here_eval h
  simp only [match_pattern, hm]
  rfl

theorem search_altgroup_abcd :
    search_from [Token.Group [Token.Alternation [Token.Literal 'a']
        [Token.Literal 'b', Token.Literal 'c']] 1, Token.Literal 'd'] ['a', 'b', 'c', 'd'] =
      .ok (some ['b', 'c', 'd']) := by
  rw [search_from, mp_altgroup_abcd_none]
  dsimp only
  rw [search_from, mp_altgroup_bcd_some]

/-! ## Claim-level theorems -/

/-- Claim C1 is REFUTED: `match_pattern` is not total on multi-byte text. For
the parsed pattern `"(a)"` and the one-character text `"é"` (two bytes), the
`Group` arm slices `&text[..1]` at a byte position that is not a character
boundary, which is a panic in the Rust source (modelled here as
`Except.error ()`), and the unanchored search loop propagates it. -/
theorem group_slice_panics_on_multibyte :
    match_pattern "é".toList (parse_regex "(a)".toList) = .error () ∧
    search_from (parse_regex "(a)".toList) "é".toList = .error () := by
  rw [parse_group_a_eq]
  constructor
  · show match_pattern ['é'] [Token.Group [Token.Literal 'a'] 1] = .error ()
    simp only [match_pattern, mh_group_a_multibyte]
  · show search_from [Token.Group [Token.Literal 'a'] 1] ['é'] = .error ()
    rw [search_from]
    simp only [match_pattern, mh_group_a_multibyte]

/-- Claim C4: matching `Backreference n` when no capture exists for the
referenced id — the slot is out of range (group missing or occurring only
later) or holds `None` (group not yet captured), including the wrapped lookup
produced by `n = 0` — is a plain `None` match failure with the capture state
unchanged, never a hard error. -/
theorem backreference_no_capture (n : Nat) (rest : List Token) (text : List Char)
    (caps : Captures)
    (h : caps.get? (usize_sub_one n) = none ∨ caps.get? (usize_sub_one n) = some none) :
    match_here (.Backreference n :: rest) text caps = .ok (none, caps) := by
  rw [match_here]
  rcases h with h | h
  · rw [h]
  · rw [h]

/-- Witness for claim C4 at the concrete input `n = 0`, text `"x"`, captures
`[Some "a"]`: the wrapped index `0 - 1` is out of range, and the match is a
plain failure. -/
theorem backreference_no_capture_witness :
    (([some ['a']] : Captures).get? (usize_sub_one 0) = none ∨
      ([some ['a']] : Captures).get? (usize_sub_one 0) = some none) ∧
    match_here [Token.Backreference 0] ['x'] [some ['a']] = .ok (none, [some ['a']]) := by
  have h : ([some ['a']] : Captures).get? (usize_sub_one 0) = none := by rfl
  exact ⟨Or.inl h, backreference_no_capture 0 [] ['x'] [some ['a']] (Or.inl h)⟩

/-- Witness for claim C5 at the concrete input: pattern `(a)` (as tokens)
against text `"b"` fails, and the final captures `[none]` are the incoming
empty captures padded with one `None` entry. -/
theorem match_here_none_caps_witness :
    match_here [Token.Group [Token.Literal 'a'] 1] ['b'] [] = .ok (none, [none]) ∧
    ∃ k, ([none] : Captures) = [] ++ List.replicate k none := by
  have h : match_here_fuel 80 [Token.Group [Token.Literal 'a'] 1] ['b'] [] =
      some (.ok (none, [none])) := by rfl
  have hm := match_here_eval h
  exact ⟨hm, match_here_none_caps hm⟩

/-- Claim C6 COUNTEREXAMPLE to the spec sentence "the leftmost unanchored
search ... finds no valid starting offset" for `"(a|bc)d"` against `"abcd"`:
the unanchored loop fails at offset 0 but then finds `"bcd"` at offset 1. -/
theorem search_finds_bcd_in_abcd :
    search_from (parse_regex "(a|bc)d".toList) "abcd".toList = .ok (some "bcd".toList) := by
  rw [parse_altgroup_eq]
  show search_from _ ['a', 'b', 'c', 'd'] = .ok (some ['b', 'c', 'd'])
  exact search_altgroup_abcd

/-- Claim C6, amended: matching `"(a|bc)d"` against `"bcd"` succeeds returning
`"bcd"`; against `"abcd"` the match at offset 0 returns `None`, but the
unanchored search still succeeds, returning `"bcd"` found at offset 1. -/
theorem alternation_group_concrete :
    match_pattern "bcd".toList (parse_regex "(a|bc)d".toList) = .ok (some "bcd".toList) ∧
    match_pattern "abcd".toList (parse_regex "(a|bc)d".toList) = .ok none ∧
    search_from (parse_regex "(a|bc)d".toList) "abcd".toList = .ok (some "bcd".toList) := by
  rw [parse_altgroup_eq]
  refine ⟨?_, ?_, ?_⟩
  · show match_pattern ['b', 'c', 'd'] _ = .ok (some ['b', 'c', 'd'])
    exact mp_altgroup_bcd_some
  · show match_pattern ['a', 'b', 'c', 'd'] _ = .ok none
    exact mp_altgroup_abcd_none
  · show search_from _ ['a', 'b', 'c', 'd'] = .ok (some ['b', 'c', 'd'])
    exact search_altgroup_abcd

/-- Claim C7: in every parsed token tree the `Group` ids, read in
left-to-right order of the opening parenthesis (pre-order traversal), form
exactly the contiguous range `1, 2, ..., n` — so they are unique and
contiguous starting at 1 in assignment order. -/
theorem parse_group_ids_contiguous (pattern : List Char) :
    ∃ n, group_ids_list (parse_regex pattern) = List.range' 1 n :=
  ⟨(parse_pattern pattern 0).2, parse_regex_gids pattern⟩

/-- Claim C8: matching always runs to completion — for every token list, text
and capture state some finite fuel suffices for the fuel-bounded interpreter
to return (rather than run out), and its value is the one the total matching
function `match_here` computes. -/
theorem match_here_terminates (tokens : List Token) (text : List Char) (caps : Captures) :
    ∃ n, match_here_fuel n tokens text caps = some (match_here tokens text caps) :=
  match_here_total tokens text caps

/-- Claim C9: the pattern `"."` matches every single-character text, returning
that character; the pattern `"$"` matches the empty text; and `"$"` does not
match the one-character text `"x"`. -/
theorem wildcard_and_end_anchor_concrete :
    (∀ c : Char, match_pattern [c] (parse_regex ".".toList) = .ok (some [c])) ∧
    match_pattern [] (parse_regex "$".toList) = .ok (some []) ∧
    match_pattern "x".toList (parse_regex "$".toList) = .ok none := by
  refine ⟨?_, ?_, ?_⟩
  · intro c
    rw [parse_dot_eq]
    simp only [match_pattern, match_here_wildcard_single]
    rw [take_bytes_single]
  · rw [parse_dollar_eq]
    have h : match_here_fuel 80 [Token.EndAnchor] ([] : List Char) [] =
        some (.ok (some 0, [])) := by rfl
    have hm := match_here_eval h
    simp only [match_pattern, hm]
    rfl
  · rw [parse_dollar_eq]
    show match_pattern ['x'] [Token.EndAnchor] = .ok none
    have h : match_here_fuel 80 [Token.EndAnchor] ['x'] [] =
        some (.ok (none, [])) := by rfl
    have hm := match_here_eval h
    simp only [match_pattern, hm]

/-- Claim C10: a `'|'` outside any parenthesised group is an ordinary literal:
`"a|b"` parses to the three literal tokens `'a'`, `'|'`, `'b'`; that pattern
matches the three-character text `"a|b"` itself, while the unanchored search
finds nothing in `"a"` or in `"b"`. -/
theorem top_level_bar_is_literal :
    parse_regex "a|b".toList = [Token.Literal 'a', Token.Literal '|', Token.Literal 'b'] ∧
    match_pattern "a|b".toList (parse_regex "a|b".toList) = .ok (some "a|b".toList) ∧
    search_from (parse_regex "a|b".toList) "a".toList = .ok none ∧
    search_from (parse_regex "a|b".toList) "b".toList = .ok none := by
  have hmpe : match_pattern [] [Token.Literal 'a', Token.Literal '|', Token.Literal 'b'] =
      .ok none := by
    have he : match_here_fuel 80 [Token.Literal 'a', Token.Literal '|', Token.Literal 'b']
        ([] : List Char) [] = some (.ok (none, [])) := by rfl
    have hme := match_here_eval he
    simp only [match_pattern, hme]
  refine ⟨parse_topbar_eq, ?_, ?_, ?_⟩
  · rw [parse_topbar_eq]
    show match_pattern ['a', '|', 'b'] _ = .ok (some ['a', '|', 'b'])
    have h : match_here_fuel 80 [Token.Literal 'a', Token.Literal '|', Token.Literal 'b']
        ['a', '|', 'b'] [] = some (.ok (some 3, [])) := by rfl
    have hm := match_here_eval h
    simp only [match_pattern, hm]
    rfl
  · rw [parse_topbar_eq]
    show search_from _ ['a'] = .ok none
    have ha : match_here_fuel 80 [Token.Literal 'a', Token.Literal '|', Token.Literal 'b']
        ['a'] [] = some (.ok (none, [])) := by rfl
    have hma := match_here_eval ha
    rw [search_from]
    simp only [match_pattern, hma]
    rw [search_from, hmpe]
  · rw [parse_topbar_eq]
    show search_from _ ['b'] = .ok none
    have hb : match_here_fuel 80 [Token.Literal 'a', Token.Literal '|', Token.Literal 'b']
        ['b'] [] = some (.ok (none, [])) := by rfl
    have hmb := match_here_eval hb
    rw [search_from]
    simp only [match_pattern, hmb]
    rw [search_from, hmpe]
